import Mathlib

/-! GC statistics stubs (`src/core/src/gc_stubs.c`)

A shallow embedding of the eight accessor primitives of `gc_stubs.c` and of the
three static helpers they share.

The C file reads nine globals of the OCaml runtime.  Their declarations live in
the runtime headers the file includes (`caml/memory.h`, `caml/gc_ctrl.h`), not in
the repository; the embedding follows the arithmetic the stub file itself spells
out with its casts:

* `caml_stat_minor_words + (double) (...)` and
  `caml_stat_major_words + (double) caml_allocated_words` are additions of C
  `double`s, and `(intnat) (...)` converts the `double` sum to the native
  signed integer;
* `caml_young_end - caml_young_ptr` is a C subtraction of two pointers to
  `value`, whose result, a `ptrdiff_t`, counts the words between them;
* `Val_long` tags a native integer as an OCaml immediate value.

The platform modelled is x86-64: `intnat` and `ptrdiff_t` are 64-bit
two's-complement integers whose arithmetic wraps around, `double` is IEEE-754
binary64 with round-to-nearest-even, and a `double` is converted to `intnat`
by the instruction `cvttsd2si`.  Every function of the stub file is embedded
as a computation on the runtime globals (`Stub`), from which the result of a
call in a given state is read off.
-/

set_option maxRecDepth 100000

namespace GcStubs

/-! ## The C type `double` -/

/-- Values of the C type `double` (IEEE-754 binary64).  `fin m e` is the finite
value `m * 2 ^ e`.  The sign of a zero is not recorded: the stub file only adds
doubles and converts them to integers, and neither operation observes it. -/
inductive Double where
  | fin (m : Int) (e : Int)
  | inf (neg : Bool)
  | nan
  deriving DecidableEq

/-- Number of significand bits of binary64. -/
def sigBits : Nat := 53

/-- Exponent of the least significant bit of a subnormal binary64. -/
def minExp : Int := -1074

/-- Largest exponent of the least significant bit of a finite binary64. -/
def maxExp : Int := 971

/-- Binary digits of `n`, counted by halving at most `fuel` times. -/
def bitLengthAux : Nat → Nat → Nat
  | 0, _ => 0
  | fuel + 1, n => if n = 0 then 0 else bitLengthAux fuel (n / 2) + 1

/-- Number of binary digits of a natural number (`0` has none). -/
def bitLength (n : Nat) : Nat := bitLengthAux n n

/-- The pair `(m, e)` is the binary64 encoding of a finite value: the
significand has at most 53 bits and the exponent is the one IEEE-754 assigns
to it (the significand is full unless the exponent is the subnormal one). -/
def Canonical (m e : Int) : Prop :=
  (m = 0 ∧ e = 0) ∨
  (m ≠ 0 ∧ e = max (e + bitLength m.natAbs - sigBits) minExp ∧ e ≤ maxExp)

instance (m e : Int) : Decidable (Canonical m e) := by
  unfold Canonical; exact inferInstance

/-- A `Double` that is a value of binary64. -/
def Double.IsBinary64 : Double → Prop
  | .fin m e => Canonical m e
  | .inf _ => True
  | .nan => True

instance (x : Double) : Decidable x.IsBinary64 := by
  cases x <;> unfold Double.IsBinary64 <;> exact inferInstance

/-- The quotient of `a` by `2 ^ k`, rounded to nearest, ties to even. -/
def roundHalfEven (a k : Nat) : Nat :=
  let q : Nat := a / 2 ^ k
  let r : Nat := a % 2 ^ k
  let half : Nat := 2 ^ (k - 1)
  if half < r ∨ (r = half ∧ q % 2 = 1) then q + 1 else q

/-- The significand of `a * 2 ^ e` at exponent `t`: exact when `t ≤ e`,
rounded otherwise. -/
def significandAt (a : Nat) (e t : Int) : Nat :=
  if t ≤ e then a * 2 ^ (e - t).toNat else roundHalfEven a (t - e).toNat

/-- The binary64 of sign `s`, significand `q` and exponent `t`, where `q` is
at most `2 ^ 53`: a significand that rounding carried up to `2 ^ 53` moves to
the next exponent, and an exponent above the largest one overflows to an
infinity. -/
def pack (s : Int) (q : Nat) (t : Int) : Double :=
  if q = 0 then .fin 0 0
  else if q = 2 ^ sigBits then
    if t + 1 ≤ maxExp then .fin (s.sign * 2 ^ (sigBits - 1)) (t + 1)
    else .inf (decide (s < 0))
  else if t ≤ maxExp then .fin (s.sign * q) t
  else .inf (decide (s < 0))

/-- The exponent binary64 gives to the least significant bit of the value
`a * 2 ^ e`, for `a` non-zero. -/
def targetExp (a : Nat) (e : Int) : Int :=
  max (e + bitLength a - sigBits) minExp

/-- Round the exact value `m * 2 ^ e` to binary64, to nearest, ties to even. -/
def roundToDouble (m e : Int) : Double :=
  if m = 0 then .fin 0 0
  else
    pack m (significandAt m.natAbs e (targetExp m.natAbs e)) (targetExp m.natAbs e)

/-- Conversion of an integer (`ptrdiff_t`, `uintnat`) to `double`: the cast
`(double) n`. -/
def Double.ofInt (n : Int) : Double := roundToDouble n 0

/-- Addition of two `double`s: the exact sum, rounded. -/
def Double.add : Double → Double → Double
  | .nan, _ => .nan
  | _, .nan => .nan
  | .inf a, .inf b => if a = b then .inf a else .nan
  | .inf a, .fin _ _ => .inf a
  | .fin _ _, .inf b => .inf b
  | .fin m1 e1, .fin m2 e2 =>
    let e := min e1 e2
    roundToDouble (m1 * 2 ^ (e1 - e).toNat + m2 * 2 ^ (e2 - e).toNat) e

/-- Lower bound of `intnat`. -/
def intnatMin : Int := -2 ^ 63

/-- Upper bound of `intnat`. -/
def intnatMax : Int := 2 ^ 63 - 1

/-- Integral part of the finite value `m * 2 ^ e` (rounding toward zero). -/
def truncate (m e : Int) : Int :=
  if 0 ≤ e then m * 2 ^ e.toNat else Int.tdiv m (2 ^ (-e).toNat)

/-- The conversion of a `double` to `intnat` where C defines it: the integral
part of `x` when it fits in `intnat`, and `none` in every other case (out of
range, infinite, NaN). -/
def Double.toIntnat : Double → Option Int
  | .fin m e =>
    let t := truncate m e
    if intnatMin ≤ t ∧ t ≤ intnatMax then some t else none
  | .inf _ => none
  | .nan => none

/-- The cast `(intnat) x` of a `double`, as `cvttsd2si` computes it: the
integral part of `x` when it fits in `intnat`, and the smallest `intnat` (the
"integer indefinite" value of the instruction) in every case C leaves
undefined. -/
def Double.castIntnat (x : Double) : Option Int :=
  match x.toIntnat with
  | some n => some n
  | none => some intnatMin

/-- The integer a `double` holds, when it holds one. -/
def Double.intValue : Double → Option Int
  | .fin m e =>
    if 0 ≤ e then some (m * 2 ^ e.toNat)
    else if m % 2 ^ (-e).toNat = 0 then some (m / 2 ^ (-e).toNat) else none
  | .inf _ => none
  | .nan => none

/-! ## Native integers and OCaml values -/

/-- Two's-complement wrap-around of an integer to the 64 bits of `intnat`. -/
def wrapIntnat (x : Int) : Int := (x + 2 ^ 63) % 2 ^ 64 - 2 ^ 63

/-- The subtraction `p - q` of two pointers to `value`, given as indices of
words: the difference of the two addresses, a 64-bit signed number of bytes,
divided by the 8 bytes of a `value`. -/
def ptrdiff (p q : Nat) : Int := wrapIntnat (8 * (p : Int) - 8 * (q : Int)) / 8

/-- The runtime's tagging of a native integer as an OCaml immediate,
`((intnat) (((uintnat) (x) << 1)) + 1)`. -/
def Val_long (x : Int) : Int := wrapIntnat (2 * x + 1)

/-- The runtime's untagging of an OCaml immediate, `((x) >> 1)`. -/
def Long_val (v : Int) : Int := v / 2

/-! ## The collector state read by the stubs -/

/-- The runtime globals the stub file reads, with the C types the runtime
declares them with: the three word counters are `double`s (the stub file adds
a `(double)` to two of them and casts all three to `intnat`), the other
counters are native integers, and the two minor-heap pointers are pointers to
`value`, so their difference counts words. -/
structure GcState where
  /-- Words allocated in the minor heap, as of the last minor collection
  (`double`). -/
  caml_stat_minor_words : Double
  /-- Words promoted from the minor to the major heap (`double`). -/
  caml_stat_promoted_words : Double
  /-- Words allocated in the major heap, as of the last slice (`double`). -/
  caml_stat_major_words : Double
  /-- Words allocated in the major heap since the last slice (`uintnat`). -/
  caml_allocated_words : Nat
  /-- Number of minor collections (`intnat`). -/
  caml_stat_minor_collections : Int
  /-- Number of major collections (`intnat`). -/
  caml_stat_major_collections : Int
  /-- Number of compactions (`intnat`). -/
  caml_stat_compactions : Int
  /-- End of the minor heap (`value *`), as an index of words. -/
  caml_young_end : Nat
  /-- Allocation pointer of the minor heap (`value *`), as an index of words;
  the minor heap is filled downwards, from `caml_young_end`. -/
  caml_young_ptr : Nat
  deriving DecidableEq

/-- The state holds values of its C types: binary64 counters, a `uintnat`,
`intnat`s, and two pointers into a 64-bit address space of 8-byte words. -/
def GcState.WellTyped (s : GcState) : Prop :=
  s.caml_stat_minor_words.IsBinary64 ∧
  s.caml_stat_promoted_words.IsBinary64 ∧
  s.caml_stat_major_words.IsBinary64 ∧
  s.caml_allocated_words < 2 ^ 64 ∧
  (intnatMin ≤ s.caml_stat_minor_collections ∧ s.caml_stat_minor_collections ≤ intnatMax) ∧
  (intnatMin ≤ s.caml_stat_major_collections ∧ s.caml_stat_major_collections ≤ intnatMax) ∧
  (intnatMin ≤ s.caml_stat_compactions ∧ s.caml_stat_compactions ≤ intnatMax) ∧
  s.caml_young_end < 2 ^ 61 ∧
  s.caml_young_ptr < 2 ^ 61

instance (s : GcState) : Decidable s.WellTyped := by
  unfold GcState.WellTyped; exact inferInstance

/-! ## The stubs -/

/-- A function of the stub file, as a computation on the runtime globals: run
from a state, it yields its result and the state it leaves.  The result is an
`Option`: `none` stands for a call that yields no integer. -/
abbrev Stub (α : Type) : Type := StateM GcState α

/-- The read of a global: the value of a field of the current state. -/
def readGlobal {α : Type} (field : GcState → α) : Stub α := do
  let s ← get
  pure (field s)

/-- C `minor_words`:
`(intnat) (caml_stat_minor_words + (double) (caml_young_end - caml_young_ptr))`. -/
def Stub.minor_words : Stub (Option Int) := do
  let words ← readGlobal GcState.caml_stat_minor_words
  let youngEnd ← readGlobal GcState.caml_young_end
  let youngPtr ← readGlobal GcState.caml_young_ptr
  pure (words.add (Double.ofInt (ptrdiff youngEnd youngPtr))).castIntnat

/-- C `promoted_words`: `(intnat) caml_stat_promoted_words`. -/
def Stub.promoted_words : Stub (Option Int) := do
  let promoted ← readGlobal GcState.caml_stat_promoted_words
  pure promoted.castIntnat

/-- C `major_words`:
`(intnat) (caml_stat_major_words + (double) caml_allocated_words)`. -/
def Stub.major_words : Stub (Option Int) := do
  let words ← readGlobal GcState.caml_stat_major_words
  let allocated ← readGlobal GcState.caml_allocated_words
  pure (words.add (Double.ofInt (allocated : Int))).castIntnat

/-- C `core_gc_minor_words`: `Val_long(minor_words())`. -/
def Stub.core_gc_minor_words : Stub (Option Int) := do
  let n ← Stub.minor_words
  pure (n.map Val_long)

/-- C `core_gc_major_words`: `Val_long(major_words())`. -/
def Stub.core_gc_major_words : Stub (Option Int) := do
  let n ← Stub.major_words
  pure (n.map Val_long)

/-- C `core_gc_promoted_words`: `Val_long(promoted_words())`. -/
def Stub.core_gc_promoted_words : Stub (Option Int) := do
  let n ← Stub.promoted_words
  pure (n.map Val_long)

/-- C `core_gc_minor_collections`: `Val_long(caml_stat_minor_collections)`. -/
def Stub.core_gc_minor_collections : Stub (Option Int) := do
  let n ← readGlobal GcState.caml_stat_minor_collections
  pure (some (Val_long n))

/-- C `core_gc_major_collections`: `Val_long(caml_stat_major_collections)`. -/
def Stub.core_gc_major_collections : Stub (Option Int) := do
  let n ← readGlobal GcState.caml_stat_major_collections
  pure (some (Val_long n))

/-- C `core_gc_compactions`: `Val_long(caml_stat_compactions)`. -/
def Stub.core_gc_compactions : Stub (Option Int) := do
  let n ← readGlobal GcState.caml_stat_compactions
  pure (some (Val_long n))

/-- C `core_gc_major_plus_minor_words`:
`Val_long(minor_words() + major_words())`, the sum taken in `intnat`. -/
def Stub.core_gc_major_plus_minor_words : Stub (Option Int) := do
  let minor ← Stub.minor_words
  let major ← Stub.major_words
  pure (minor.bind fun a => major.bind fun b => some (Val_long (wrapIntnat (a + b))))

/-- C `core_gc_allocated_words`:
`Val_long(minor_words() + major_words() - promoted_words())`, the arithmetic
done in `intnat`. -/
def Stub.core_gc_allocated_words : Stub (Option Int) := do
  let minor ← Stub.minor_words
  let major ← Stub.major_words
  let promoted ← Stub.promoted_words
  pure (minor.bind fun a => major.bind fun b => promoted.bind fun c =>
    some (Val_long (wrapIntnat (wrapIntnat (a + b) - c))))

/-- What `minor_words()` returns when called in state `s`. -/
def minor_words (s : GcState) : Option Int := (Stub.minor_words.run s).1

/-- What `promoted_words()` returns when called in state `s`. -/
def promoted_words (s : GcState) : Option Int := (Stub.promoted_words.run s).1

/-- What `major_words()` returns when called in state `s`. -/
def major_words (s : GcState) : Option Int := (Stub.major_words.run s).1

/-- What `core_gc_minor_words` returns when called in state `s`. -/
def core_gc_minor_words (s : GcState) : Option Int := (Stub.core_gc_minor_words.run s).1

/-- What `core_gc_major_words` returns when called in state `s`. -/
def core_gc_major_words (s : GcState) : Option Int := (Stub.core_gc_major_words.run s).1

/-- What `core_gc_promoted_words` returns when called in state `s`. -/
def core_gc_promoted_words (s : GcState) : Option Int :=
  (Stub.core_gc_promoted_words.run s).1

/-- What `core_gc_minor_collections` returns when called in state `s`. -/
def core_gc_minor_collections (s : GcState) : Option Int :=
  (Stub.core_gc_minor_collections.run s).1

/-- What `core_gc_major_collections` returns when called in state `s`. -/
def core_gc_major_collections (s : GcState) : Option Int :=
  (Stub.core_gc_major_collections.run s).1

/-- What `core_gc_compactions` returns when called in state `s`. -/
def core_gc_compactions (s : GcState) : Option Int := (Stub.core_gc_compactions.run s).1

/-- What `core_gc_major_plus_minor_words` returns when called in state `s`. -/
def core_gc_major_plus_minor_words (s : GcState) : Option Int :=
  (Stub.core_gc_major_plus_minor_words.run s).1

/-- What `core_gc_allocated_words` returns when called in state `s`. -/
def core_gc_allocated_words (s : GcState) : Option Int :=
  (Stub.core_gc_allocated_words.run s).1

/-! ## What the caller sees -/

/-- The OCaml integer an immediate value denotes: OCaml integers have 63 bits,
so this is the two's-complement wrap-around of `x` to 63 bits. -/
def wrapOCamlInt (x : Int) : Int := (x + 2 ^ 62) % 2 ^ 63 - 2 ^ 62

/-- The result `r` of a primitive is the OCaml integer `n`. -/
def Returns (r : Option Int) (n : Int) : Prop := r.map Long_val = some n

instance (r : Option Int) (n : Int) : Decidable (Returns r n) := by
  unfold Returns; exact inferInstance

/-- The eight primitives of the stub file. -/
inductive Primitive where
  | minorWords
  | majorWords
  | promotedWords
  | minorCollections
  | majorCollections
  | compactions
  | majorPlusMinorWords
  | allocatedWords
  deriving DecidableEq

/-- The C function behind a primitive. -/
def Primitive.stub : Primitive → Stub (Option Int)
  | .minorWords => Stub.core_gc_minor_words
  | .majorWords => Stub.core_gc_major_words
  | .promotedWords => Stub.core_gc_promoted_words
  | .minorCollections => Stub.core_gc_minor_collections
  | .majorCollections => Stub.core_gc_major_collections
  | .compactions => Stub.core_gc_compactions
  | .majorPlusMinorWords => Stub.core_gc_major_plus_minor_words
  | .allocatedWords => Stub.core_gc_allocated_words

/-- Two calls of a primitive in succession, with nothing in between: the pair
of the two results. -/
def Primitive.twice (p : Primitive) : Stub (Option Int × Option Int) := do
  let first ← p.stub
  let second ← p.stub
  pure (first, second)

/-- A call of the primitive `p` followed by a call of the primitive `q`: the
result of the second call. -/
def Primitive.andThen (p q : Primitive) : Stub (Option Int) := do
  let _ ← p.stub
  q.stub


/-- The globals of a collector that has just been initialised (every recorded
counter zero) and has then allocated `k` words in the minor heap without a
collection: `k` words lie between the allocation pointer, at index `base`,
and the end of the minor heap. -/
def freshAllocated (base k : Nat) : GcState where
  caml_stat_minor_words := .fin 0 0
  caml_stat_promoted_words := .fin 0 0
  caml_stat_major_words := .fin 0 0
  caml_allocated_words := 0
  caml_stat_minor_collections := 0
  caml_stat_major_collections := 0
  caml_stat_compactions := 0
  caml_young_end := base + k
  caml_young_ptr := base

/-- A state whose minor-words counter holds `2 ^ 53` and whose allocation
pointer is one word below the end of the minor heap. -/
def stateMinorRounds : GcState where
  caml_stat_minor_words := .fin (2 ^ 52) 1
  caml_stat_promoted_words := .fin 0 0
  caml_stat_major_words := .fin 0 0
  caml_allocated_words := 0
  caml_stat_minor_collections := 0
  caml_stat_major_collections := 0
  caml_stat_compactions := 0
  caml_young_end := 1
  caml_young_ptr := 0

/-- A state whose major-words counter holds `2 ^ 53` and whose
allocated-words counter holds `1`. -/
def stateMajorRounds : GcState where
  caml_stat_minor_words := .fin 0 0
  caml_stat_promoted_words := .fin 0 0
  caml_stat_major_words := .fin (2 ^ 52) 1
  caml_allocated_words := 1
  caml_stat_minor_collections := 0
  caml_stat_major_collections := 0
  caml_stat_compactions := 0
  caml_young_end := 0
  caml_young_ptr := 0

/-- A state in the exact range: the minor-words counter holds `1000`, with `24`
words in flight; the major-words counter holds `500`, with `12` allocated words;
`300` words promoted. -/
def stateSmall : GcState where
  caml_stat_minor_words := .fin (1000 * 2 ^ 43) (-43)
  caml_stat_promoted_words := .fin (300 * 2 ^ 44) (-44)
  caml_stat_major_words := .fin (500 * 2 ^ 44) (-44)
  caml_allocated_words := 12
  caml_stat_minor_collections := 7
  caml_stat_major_collections := 3
  caml_stat_compactions := 1
  caml_young_end := 4096
  caml_young_ptr := 4072

/-- A state whose minor-words and major-words counters both hold `2 ^ 61`,
with nothing in flight and nothing promoted. -/
def stateSumWraps : GcState where
  caml_stat_minor_words := .fin (2 ^ 52) 9
  caml_stat_promoted_words := .fin 0 0
  caml_stat_major_words := .fin (2 ^ 52) 9
  caml_allocated_words := 0
  caml_stat_minor_collections := 0
  caml_stat_major_collections := 0
  caml_stat_compactions := 0
  caml_young_end := 0
  caml_young_ptr := 0

/-- A state whose promoted-words counter holds one half and whose
minor-collections counter holds `2 ^ 62`. -/
def stateOddCounters : GcState where
  caml_stat_minor_words := .fin 0 0
  caml_stat_promoted_words := .fin (2 ^ 52) (-53)
  caml_stat_major_words := .fin 0 0
  caml_allocated_words := 0
  caml_stat_minor_collections := 2 ^ 62
  caml_stat_major_collections := 0
  caml_stat_compactions := 0
  caml_young_end := 0
  caml_young_ptr := 0

/-- A state whose minor-words counter is a NaN and whose promoted-words
counter holds `2 ^ 63`: C does not define the conversion of either to
`intnat`. -/
def stateUndefined : GcState where
  caml_stat_minor_words := .nan
  caml_stat_promoted_words := .fin (2 ^ 52) 11
  caml_stat_major_words := .fin 0 0
  caml_allocated_words := 0
  caml_stat_minor_collections := 0
  caml_stat_major_collections := 0
  caml_stat_compactions := 0
  caml_young_end := 0
  caml_young_ptr := 0
theorem bitLengthAux_zero (fuel : Nat) : bitLengthAux fuel 0 = 0 := by
  cases fuel <;> simp [bitLengthAux]

theorem bitLengthAux_spec (fuel : Nat) :
    ∀ n : Nat, n ≤ fuel →
      n < 2 ^ bitLengthAux fuel n ∧ (n ≠ 0 → 2 ^ (bitLengthAux fuel n - 1) ≤ n) := by
  induction fuel with
  | zero =>
    intro n hn
    have : n = 0 := by omega
    subst this
    simp [bitLengthAux]
  | succ f ih =>
    intro n hn
    by_cases h0 : n = 0
    · subst h0; simp [bitLengthAux]
    · have hhalf : n / 2 ≤ f := by omega
      obtain ⟨h1, h2⟩ := ih (n / 2) hhalf
      simp only [bitLengthAux, h0, if_false, Nat.add_sub_cancel]
      refine ⟨?_, fun _ => ?_⟩
      · rw [pow_succ]; omega
      · by_cases hz : n / 2 = 0
        · rw [hz, bitLengthAux_zero]; simp; omega
        · have h3 := h2 hz
          have hpos : bitLengthAux f (n / 2) ≠ 0 := by
            intro h; rw [h] at h1; simp at h1; exact hz h1
          have : 2 ^ bitLengthAux f (n / 2) = 2 * 2 ^ (bitLengthAux f (n / 2) - 1) := by
            rw [← pow_succ']; congr 1; omega
          omega

theorem bitLength_zero : bitLength 0 = 0 := bitLengthAux_zero 0

theorem lt_two_pow_bitLength (n : Nat) : n < 2 ^ bitLength n :=
  (bitLengthAux_spec n n le_rfl).1

theorem two_pow_le_of_bitLength (n : Nat) (h : n ≠ 0) : 2 ^ (bitLength n - 1) ≤ n :=
  (bitLengthAux_spec n n le_rfl).2 h

theorem bitLength_pos (n : Nat) (h : n ≠ 0) : 0 < bitLength n := by
  by_contra hc
  have h0 : bitLength n = 0 := by omega
  have := lt_two_pow_bitLength n
  rw [h0] at this
  omega

theorem bitLength_eq (n k : Nat) (h1 : 2 ^ k ≤ n) (h2 : n < 2 ^ (k + 1)) :
    bitLength n = k + 1 := by
  have hn : n ≠ 0 := by
    have : 0 < 2 ^ k := Nat.two_pow_pos _
    omega
  have ha := lt_two_pow_bitLength n
  have hb := two_pow_le_of_bitLength n hn
  have hk : k < bitLength n := by
    have : 2 ^ k < 2 ^ bitLength n := lt_of_le_of_lt h1 ha
    exact (Nat.pow_lt_pow_iff_right (by decide)).1 this
  have hk2 : bitLength n - 1 < k + 1 := by
    have : 2 ^ (bitLength n - 1) < 2 ^ (k + 1) := lt_of_le_of_lt hb h2
    exact (Nat.pow_lt_pow_iff_right (by decide)).1 this
  omega

theorem bitLength_le_iff (n k : Nat) : bitLength n ≤ k ↔ n < 2 ^ k := by
  constructor
  · intro h
    exact lt_of_lt_of_le (lt_two_pow_bitLength n) (Nat.pow_le_pow_right (by decide) h)
  · intro h
    by_cases hn : n = 0
    · subst hn; rw [bitLength_zero]; omega
    · have hb := two_pow_le_of_bitLength n hn
      have : 2 ^ (bitLength n - 1) < 2 ^ k := lt_of_le_of_lt hb h
      have := (Nat.pow_lt_pow_iff_right (a := 2) (by decide)).1 this
      omega

theorem bitLength_mul_two_pow (n j : Nat) (h : n ≠ 0) :
    bitLength (n * 2 ^ j) = bitLength n + j := by
  have hp := bitLength_pos n h
  have ha := lt_two_pow_bitLength n
  have hb := two_pow_le_of_bitLength n h
  have e : bitLength n + j = (bitLength n - 1 + j) + 1 := by omega
  rw [e]
  apply bitLength_eq
  · rw [pow_add]; exact Nat.mul_le_mul_right _ hb
  · have : bitLength n - 1 + j + 1 = bitLength n + j := by omega
    rw [this, pow_add]
    exact Nat.mul_lt_mul_of_pos_right ha (Nat.two_pow_pos _)

theorem bitLength_div_two_pow (n k : Nat) (h : k < bitLength n) :
    bitLength (n / 2 ^ k) = bitLength n - k := by
  have hn : n ≠ 0 := by
    intro h0; subst h0; rw [bitLength_zero] at h; omega
  have ha := lt_two_pow_bitLength n
  have hb := two_pow_le_of_bitLength n hn
  have e : bitLength n - k = (bitLength n - 1 - k) + 1 := by omega
  rw [e]
  apply bitLength_eq
  · rw [Nat.le_div_iff_mul_le (Nat.two_pow_pos _), ← pow_add]
    have : bitLength n - 1 - k + k = bitLength n - 1 := by omega
    rw [this]; exact hb
  · rw [Nat.div_lt_iff_lt_mul (Nat.two_pow_pos _), ← pow_add]
    have : bitLength n - 1 - k + 1 + k = bitLength n := by omega
    rw [this]; exact ha

/-! ## Rounding -/

theorem roundHalfEven_of_dvd (a k j : Nat) (hkj : k ≤ j) :
    roundHalfEven (a * 2 ^ j) k = a * 2 ^ (j - k) := by
  have hj : a * 2 ^ j = a * 2 ^ (j - k) * 2 ^ k := by
    rw [mul_assoc, ← pow_add]; congr 2; omega
  have hpos : 0 < 2 ^ (k - 1) := Nat.two_pow_pos _
  unfold roundHalfEven
  simp only [hj, Nat.mul_mod_left, Nat.mul_div_cancel _ (Nat.two_pow_pos k)]
  rw [if_neg]
  rintro (h | ⟨h, _⟩) <;> omega

theorem roundHalfEven_scale (a k j : Nat) (hk : 1 ≤ k) :
    roundHalfEven (a * 2 ^ j) (k + j) = roundHalfEven a k := by
  have hq : a * 2 ^ j / 2 ^ (k + j) = a / 2 ^ k := by
    rw [pow_add, mul_comm (2 ^ k) (2 ^ j), ← Nat.div_div_eq_div_mul,
      Nat.mul_div_cancel _ (Nat.two_pow_pos j)]
  have hr : a * 2 ^ j % 2 ^ (k + j) = a % 2 ^ k * 2 ^ j := by
    rw [pow_add, Nat.mul_mod_mul_right]
  have hh : 2 ^ (k + j - 1) = 2 ^ (k - 1) * 2 ^ j := by
    rw [← pow_add]; congr 1; omega
  have hpos : 0 < 2 ^ j := Nat.two_pow_pos j
  unfold roundHalfEven
  simp only [hq, hr, hh]
  have e1 : (2 ^ (k - 1) * 2 ^ j < a % 2 ^ k * 2 ^ j) ↔ (2 ^ (k - 1) < a % 2 ^ k) :=
    Nat.mul_lt_mul_right hpos
  have e2 : (a % 2 ^ k * 2 ^ j = 2 ^ (k - 1) * 2 ^ j) ↔ (a % 2 ^ k = 2 ^ (k - 1)) :=
    Nat.mul_left_inj (by omega)
  simp only [e1, e2]

theorem roundHalfEven_le (a k : Nat) : roundHalfEven a k ≤ a / 2 ^ k + 1 := by
  unfold roundHalfEven
  simp only
  split <;> omega

theorem le_roundHalfEven (a k : Nat) : a / 2 ^ k ≤ roundHalfEven a k := by
  unfold roundHalfEven
  simp only
  split <;> omega

theorem targetExp_scale (a j : Nat) (e : Int) (ha : a ≠ 0) :
    targetExp (a * 2 ^ j) e = targetExp a (e + j) := by
  unfold targetExp
  rw [bitLength_mul_two_pow a j ha]
  push_cast
  congr 1
  ring

theorem significandAt_scale (a j : Nat) (e t : Int) :
    significandAt (a * 2 ^ j) e t = significandAt a (e + j) t := by
  unfold significandAt
  by_cases h1 : t ≤ e
  · have h2 : t ≤ e + j := by omega
    rw [if_pos h1, if_pos h2, mul_assoc, ← pow_add]
    congr 2
    omega
  · rw [if_neg h1]
    by_cases h2 : t ≤ e + j
    · rw [if_pos h2, roundHalfEven_of_dvd a _ j (by omega)]
      congr 2
      omega
    · rw [if_neg h2]
      have hk : (t - e).toNat = (t - (e + j)).toNat + j := by omega
      rw [hk, roundHalfEven_scale a _ j (by omega)]

theorem pack_congr (s s' : Int) (q : Nat) (t : Int) (h1 : s.sign = s'.sign) :
    pack s q t = pack s' q t := by
  have h2 : decide (s < 0) = decide (s' < 0) := by
    have e1 := @Int.sign_eq_neg_one_iff_neg s
    have e2 := @Int.sign_eq_neg_one_iff_neg s'
    rw [h1] at e1
    have : s < 0 ↔ s' < 0 := e1.symm.trans e2
    simp only [this]
  unfold pack
  rw [h1, h2]

/-- Rounding depends on the value only, not on the scale it is written at. -/
theorem roundToDouble_scale (m e : Int) (j : Nat) :
    roundToDouble (m * 2 ^ j) e = roundToDouble m (e + j) := by
  by_cases hm : m = 0
  · subst hm; simp [roundToDouble]
  · have hp : (2 : Int) ^ j ≠ 0 := pow_ne_zero _ (by decide)
    have hp' : (0 : Int) < 2 ^ j := by positivity
    have hm2 : m * 2 ^ j ≠ 0 := mul_ne_zero hm hp
    have ha : m.natAbs ≠ 0 := Int.natAbs_ne_zero.2 hm
    have habs : (m * 2 ^ j).natAbs = m.natAbs * 2 ^ j := by
      rw [Int.natAbs_mul, Int.natAbs_pow]; rfl
    unfold roundToDouble
    rw [if_neg hm, if_neg hm2, habs, targetExp_scale _ _ _ ha, significandAt_scale]
    apply pack_congr
    rw [Int.sign_mul, Int.sign_eq_one_of_pos hp', mul_one]

theorem minExp_le_targetExp (a : Nat) (e : Int) : minExp ≤ targetExp a e :=
  le_max_right _ _

theorem le_targetExp (a : Nat) (e : Int) : e + bitLength a - sigBits ≤ targetExp a e :=
  le_max_left _ _

theorem targetExp_eq_of_lt (a : Nat) (e : Int) (h : minExp < targetExp a e) :
    targetExp a e = e + bitLength a - sigBits := by
  unfold targetExp at h ⊢
  rcases max_cases (e + (bitLength a : Int) - sigBits) minExp with ⟨h1, _⟩ | ⟨h1, _⟩
  · exact h1
  · rw [h1] at h; exact absurd h (lt_irrefl _)

theorem significandAt_le (a : Nat) (e : Int) :
    significandAt a e (targetExp a e) ≤ 2 ^ sigBits := by
  have ht := le_targetExp a e
  have hlt := lt_two_pow_bitLength a
  unfold significandAt
  split
  · rename_i h
    by_cases ha : a = 0
    · subst ha; simp
    · apply le_of_lt
      rw [← bitLength_le_iff, bitLength_mul_two_pow a _ ha]
      omega
  · rename_i h
    refine le_trans (roundHalfEven_le _ _) ?_
    by_cases hk : bitLength a ≤ (targetExp a e - e).toNat
    · have : a < 2 ^ (targetExp a e - e).toNat :=
        lt_of_lt_of_le hlt (Nat.pow_le_pow_right (by decide) hk)
      rw [Nat.div_eq_of_lt this]
      exact Nat.one_le_two_pow
    · have hb := bitLength_div_two_pow a (targetExp a e - e).toNat (by omega)
      have : bitLength (a / 2 ^ (targetExp a e - e).toNat) ≤ sigBits := by omega
      rw [bitLength_le_iff] at this
      omega

theorem le_significandAt (a : Nat) (e : Int) (ha : a ≠ 0) (h : minExp < targetExp a e) :
    2 ^ (sigBits - 1) ≤ significandAt a e (targetExp a e) := by
  have ht := targetExp_eq_of_lt a e h
  unfold significandAt
  split
  · rename_i h'
    have hb := bitLength_mul_two_pow a (e - targetExp a e).toNat ha
    have h53 : bitLength (a * 2 ^ (e - targetExp a e).toNat) = sigBits := by omega
    have := two_pow_le_of_bitLength (a * 2 ^ (e - targetExp a e).toNat)
      (by intro h0; rw [h0, bitLength_zero] at h53; simp [sigBits] at h53)
    rw [h53] at this
    exact this
  · rename_i h'
    refine le_trans ?_ (le_roundHalfEven _ _)
    have hp := bitLength_pos a ha
    have hb := bitLength_div_two_pow a (targetExp a e - e).toNat
      (by simp only [sigBits] at ht; omega)
    have h53 : bitLength (a / 2 ^ (targetExp a e - e).toNat) = sigBits := by omega
    have := two_pow_le_of_bitLength (a / 2 ^ (targetExp a e - e).toNat)
      (by intro h0; rw [h0, bitLength_zero] at h53; simp [sigBits] at h53)
    rw [h53] at this
    exact this

theorem natAbs_sign_mul (s : Int) (q : Nat) (hs : s ≠ 0) : (s.sign * (q : Int)).natAbs = q := by
  rw [Int.natAbs_mul, Int.natAbs_sign_of_nonzero hs, one_mul, Int.natAbs_ofNat]

theorem pack_isBinary64 (s : Int) (q : Nat) (t : Int) (hs : s ≠ 0) (hq : q ≤ 2 ^ sigBits)
    (ht : minExp ≤ t) (hfull : minExp < t → 2 ^ (sigBits - 1) ≤ q) :
    (pack s q t).IsBinary64 := by
  unfold pack
  by_cases h0 : q = 0
  · rw [if_pos h0]; exact Or.inl ⟨rfl, rfl⟩
  · rw [if_neg h0]
    by_cases h1 : q = 2 ^ sigBits
    · rw [if_pos h1]
      split
      · rename_i h2
        have hn : (s.sign * 2 ^ (sigBits - 1)).natAbs = 2 ^ (sigBits - 1) := by
          have := natAbs_sign_mul s (2 ^ (sigBits - 1)) hs
          simpa using this
        refine Or.inr ⟨?_, ?_, h2⟩
        · intro h; rw [h] at hn; simp [sigBits] at hn
        · rw [hn, bitLength_eq (2 ^ (sigBits - 1)) (sigBits - 1) le_rfl
            (Nat.pow_lt_pow_right (by decide) (by decide))]
          simp only [sigBits, minExp] at ht ⊢
          omega
      · trivial
    · rw [if_neg h1]
      split
      · rename_i h2
        have hn : (s.sign * (q : Int)).natAbs = q := natAbs_sign_mul s q hs
        have hlt : q < 2 ^ sigBits := lt_of_le_of_ne hq h1
        have hb : bitLength q ≤ sigBits := (bitLength_le_iff q sigBits).2 hlt
        refine Or.inr ⟨?_, ?_, h2⟩
        · intro h; rw [h] at hn; exact h0 hn.symm
        · rw [hn]
          by_cases hm : minExp < t
          · have h52 := hfull hm
            have : bitLength q = sigBits := by
              have := bitLength_eq q (sigBits - 1) h52 (by simpa [sigBits] using hlt)
              simpa [sigBits] using this
            rw [this]
            simp only [sigBits, minExp] at hm ⊢
            omega
          · have : t = minExp := le_antisymm (not_lt.1 hm) ht
            subst this
            simp only [sigBits, minExp] at hb ⊢
            omega
      · trivial

/-- Rounding yields a value of binary64. -/
theorem roundToDouble_isBinary64 (m e : Int) : (roundToDouble m e).IsBinary64 := by
  unfold roundToDouble
  by_cases hm : m = 0
  · rw [if_pos hm]; exact Or.inl ⟨rfl, rfl⟩
  · rw [if_neg hm]
    have ha : m.natAbs ≠ 0 := Int.natAbs_ne_zero.2 hm
    exact pack_isBinary64 m _ _ hm (significandAt_le _ _) (minExp_le_targetExp _ _)
      (le_significandAt _ _ ha)

theorem Double.ofInt_isBinary64 (n : Int) : (Double.ofInt n).IsBinary64 :=
  roundToDouble_isBinary64 n 0

theorem Double.ofInt_zero : Double.ofInt 0 = .fin 0 0 := by
  simp [Double.ofInt, roundToDouble]

theorem Double.intValue_fin_iff (m e c : Int) :
    (Double.fin m e).intValue = some c ↔
      (0 ≤ e ∧ c = m * 2 ^ e.toNat) ∨ (e < 0 ∧ m = c * 2 ^ (-e).toNat) := by
  have hp : (2 : Int) ^ (-e).toNat ≠ 0 := pow_ne_zero _ (by decide)
  simp only [Double.intValue]
  constructor
  · intro h
    by_cases he : 0 ≤ e
    · rw [if_pos he] at h
      exact Or.inl ⟨he, (Option.some.inj h).symm⟩
    · rw [if_neg he] at h
      by_cases hd : m % 2 ^ (-e).toNat = 0
      · rw [if_pos hd] at h
        have hc := Option.some.inj h
        refine Or.inr ⟨by omega, ?_⟩
        rw [← hc, Int.ediv_mul_cancel (Int.dvd_of_emod_eq_zero hd)]
      · rw [if_neg hd] at h
        exact absurd h (by simp)
  · rintro (⟨he, hc⟩ | ⟨he, hc⟩)
    · rw [if_pos he, hc]
    · rw [if_neg (not_le.2 he), hc, Int.mul_emod_left, if_pos rfl, Int.mul_ediv_cancel _ hp]

/-- A double that holds the integer `c` rounds as `c` does. -/
theorem roundToDouble_of_intValue (m e c : Int) (h : (Double.fin m e).intValue = some c) :
    roundToDouble m e = Double.ofInt c := by
  rcases (Double.intValue_fin_iff m e c).1 h with ⟨he, hc⟩ | ⟨he, hc⟩
  · have := roundToDouble_scale m 0 e.toNat
    rw [Double.ofInt, hc, this]
    congr 1
    omega
  · have := roundToDouble_scale c e (-e).toNat
    rw [Double.ofInt, hc, this]
    congr 1
    omega

theorem roundToDouble_exact (m e : Int) (hm : m ≠ 0) (h1 : targetExp m.natAbs e ≤ e)
    (h2 : targetExp m.natAbs e ≤ maxExp) :
    roundToDouble m e =
      .fin (m * 2 ^ (e - targetExp m.natAbs e).toNat) (targetExp m.natAbs e) := by
  have ha : m.natAbs ≠ 0 := Int.natAbs_ne_zero.2 hm
  have hq := significandAt_le m.natAbs e
  have hs : significandAt m.natAbs e (targetExp m.natAbs e) =
      m.natAbs * 2 ^ (e - targetExp m.natAbs e).toNat := by
    unfold significandAt; rw [if_pos h1]
  have hne : m.natAbs * 2 ^ (e - targetExp m.natAbs e).toNat ≠ 2 ^ sigBits := by
    intro hc
    have hb := bitLength_mul_two_pow m.natAbs (e - targetExp m.natAbs e).toNat ha
    rw [hc, bitLength_eq (2 ^ sigBits) sigBits le_rfl
      (Nat.pow_lt_pow_right (by decide) (by decide))] at hb
    have := le_targetExp m.natAbs e
    omega
  have hne0 : m.natAbs * 2 ^ (e - targetExp m.natAbs e).toNat ≠ 0 :=
    Nat.mul_ne_zero ha (Nat.two_pow_pos _).ne'
  unfold roundToDouble
  rw [if_neg hm, hs]
  unfold pack
  rw [if_neg hne0, if_neg hne, if_pos h2]
  congr 1
  rw [Nat.cast_mul, ← mul_assoc, Int.sign_mul_natAbs]
  norm_cast

theorem truncate_mul_two_pow (n : Int) (a : Nat) : truncate (n * 2 ^ a) (-(a : Int)) = n := by
  unfold truncate
  by_cases h : a = 0
  · subst h; simp
  · have : ¬ (0 : Int) ≤ -(a : Int) := by omega
    rw [if_neg this]
    simp only [neg_neg, Int.toNat_ofNat]
    exact Int.mul_tdiv_cancel _ (pow_ne_zero _ (by decide))

theorem intValue_mul_two_pow (n : Int) (a : Nat) :
    (Double.fin (n * 2 ^ a) (-(a : Int))).intValue = some n := by
  rw [Double.intValue_fin_iff]
  by_cases h : a = 0
  · subst h; left; simp
  · right
    refine ⟨by omega, ?_⟩
    simp

theorem Double.toIntnat_fin (m e : Int) (h1 : intnatMin ≤ truncate m e)
    (h2 : truncate m e ≤ intnatMax) : (Double.fin m e).toIntnat = some (truncate m e) := by
  simp only [Double.toIntnat]
  rw [if_pos ⟨h1, h2⟩]

/-- The cast of an integer of magnitude at most `2 ^ 53` to `double` is exact. -/
theorem Double.ofInt_exact (c : Int) (h : c.natAbs ≤ 2 ^ 53) :
    (Double.ofInt c).intValue = some c ∧ (Double.ofInt c).toIntnat = some c := by
  by_cases h0 : c = 0
  · subst h0
    rw [Double.ofInt_zero]
    decide
  · rcases Nat.lt_or_eq_of_le h with hlt | heq
    · have ha : c.natAbs ≠ 0 := Int.natAbs_ne_zero.2 h0
      have hb : bitLength c.natAbs ≤ 53 := (bitLength_le_iff _ _).2 hlt
      have ht : targetExp c.natAbs 0 = -((53 - bitLength c.natAbs : Nat) : Int) := by
        unfold targetExp
        simp only [sigBits, minExp]
        omega
      have hr := roundToDouble_exact c 0 h0 (by rw [ht]; omega)
        (by rw [ht]; simp only [maxExp]; omega)
      rw [ht] at hr
      have hk : (0 - -((53 - bitLength c.natAbs : Nat) : Int)).toNat = 53 - bitLength c.natAbs := by
        omega
      rw [hk] at hr
      have htr := truncate_mul_two_pow c (53 - bitLength c.natAbs)
      rw [Double.ofInt, hr]
      refine ⟨intValue_mul_two_pow _ _, ?_⟩
      rw [Double.toIntnat_fin _ _ (by rw [htr]; simp only [intnatMin]; omega)
        (by rw [htr]; simp only [intnatMax]; omega), htr]
    · rcases Int.natAbs_eq c with hc | hc
      · rw [hc, heq]; decide
      · rw [hc, heq]; decide

/-- The sum of two doubles that hold integers is the rounding of the exact
integer sum. -/
theorem Double.add_of_intValue (x y : Double) (a b : Int) (hx : x.intValue = some a)
    (hy : y.intValue = some b) : x.add y = Double.ofInt (a + b) := by
  cases x with
  | nan => simp [Double.intValue] at hx
  | inf s => simp [Double.intValue] at hx
  | fin m1 e1 =>
    cases y with
    | nan => simp [Double.intValue] at hy
    | inf s => simp [Double.intValue] at hy
    | fin m2 e2 =>
      simp only [Double.add]
      apply roundToDouble_of_intValue
      rw [Double.intValue_fin_iff]
      have hl : min e1 e2 ≤ e1 := min_le_left _ _
      have hr : min e1 e2 ≤ e2 := min_le_right _ _
      have key : ∀ (m e c : Int), (Double.fin m e).intValue = some c → min e1 e2 ≤ e →
          (0 ≤ min e1 e2 → m * 2 ^ (e - min e1 e2).toNat * 2 ^ (min e1 e2).toNat = c) ∧
          (min e1 e2 < 0 → m * 2 ^ (e - min e1 e2).toNat = c * 2 ^ (-min e1 e2).toNat) := by
        intro m e c hc hle
        rcases (Double.intValue_fin_iff m e c).1 hc with ⟨he, hv⟩ | ⟨he, hv⟩
        · constructor
          · intro h0
            rw [hv, mul_assoc, ← pow_add]
            congr 2
            omega
          · intro h0
            rw [hv, mul_assoc, ← pow_add]
            congr 2
            omega
        · constructor
          · intro h0
            omega
          · intro h0
            rw [hv, mul_assoc, ← pow_add]
            congr 2
            omega
      obtain ⟨k1, k2⟩ := key m1 e1 a hx hl
      obtain ⟨k3, k4⟩ := key m2 e2 b hy hr
      by_cases h0 : 0 ≤ min e1 e2
      · left
        refine ⟨h0, ?_⟩
        rw [add_mul, k1 h0, k3 h0]
      · right
        have h0' : min e1 e2 < 0 := not_le.1 h0
        refine ⟨h0', ?_⟩
        rw [add_mul, k2 h0', k4 h0']

/-! ## Tagged integers -/

theorem Long_val_Val_long (x : Int) : Long_val (Val_long x) = wrapOCamlInt x := by
  unfold Long_val Val_long wrapIntnat wrapOCamlInt
  omega

theorem wrapOCamlInt_of_range (x : Int) (h1 : -2 ^ 62 ≤ x) (h2 : x < 2 ^ 62) :
    wrapOCamlInt x = x := by
  unfold wrapOCamlInt
  omega

theorem wrapOCamlInt_wrapIntnat (x : Int) : wrapOCamlInt (wrapIntnat x) = wrapOCamlInt x := by
  unfold wrapIntnat wrapOCamlInt
  omega

theorem wrapOCamlInt_add (a b : Int) :
    wrapOCamlInt (wrapOCamlInt a + wrapOCamlInt b) = wrapOCamlInt (a + b) := by
  unfold wrapOCamlInt
  omega

theorem wrapOCamlInt_sub (a b : Int) :
    wrapOCamlInt (wrapOCamlInt a - wrapOCamlInt b) = wrapOCamlInt (a - b) := by
  unfold wrapOCamlInt
  omega

theorem returns_map_Val_long (r : Option Int) (n : Int) (h : r = some n) :
    Returns (r.map Val_long) (wrapOCamlInt n) := by
  subst h
  simp [Returns, Long_val_Val_long]

/-! ## The stubs, unfolded -/

theorem minor_words_eq (s : GcState) :
    minor_words s =
      (s.caml_stat_minor_words.add
        (Double.ofInt (ptrdiff s.caml_young_end s.caml_young_ptr))).castIntnat := rfl

theorem promoted_words_eq (s : GcState) :
    promoted_words s = s.caml_stat_promoted_words.castIntnat := rfl

theorem major_words_eq (s : GcState) :
    major_words s =
      (s.caml_stat_major_words.add (Double.ofInt (s.caml_allocated_words : Int))).castIntnat :=
  rfl

theorem core_gc_minor_words_eq (s : GcState) :
    core_gc_minor_words s = (minor_words s).map Val_long := rfl

theorem core_gc_major_words_eq (s : GcState) :
    core_gc_major_words s = (major_words s).map Val_long := rfl

theorem core_gc_promoted_words_eq (s : GcState) :
    core_gc_promoted_words s = (promoted_words s).map Val_long := rfl

theorem core_gc_minor_collections_eq (s : GcState) :
    core_gc_minor_collections s = some (Val_long s.caml_stat_minor_collections) := rfl

theorem core_gc_major_collections_eq (s : GcState) :
    core_gc_major_collections s = some (Val_long s.caml_stat_major_collections) := rfl

theorem core_gc_compactions_eq (s : GcState) :
    core_gc_compactions s = some (Val_long s.caml_stat_compactions) := rfl

theorem core_gc_major_plus_minor_words_eq (s : GcState) :
    core_gc_major_plus_minor_words s =
      (minor_words s).bind fun a =>
      (major_words s).bind fun b => some (Val_long (wrapIntnat (a + b))) := rfl

theorem core_gc_allocated_words_eq (s : GcState) :
    core_gc_allocated_words s =
      (minor_words s).bind fun a =>
      (major_words s).bind fun b =>
      (promoted_words s).bind fun c =>
        some (Val_long (wrapIntnat (wrapIntnat (a + b) - c))) := rfl

theorem ptrdiff_of_range (p q : Nat) (h1 : -2 ^ 60 ≤ (p : Int) - (q : Int))
    (h2 : (p : Int) - (q : Int) < 2 ^ 60) : ptrdiff p q = (p : Int) - (q : Int) := by
  unfold ptrdiff wrapIntnat
  omega

theorem Double.castIntnat_of_toIntnat (x : Double) (n : Int) (h : x.toIntnat = some n) :
    x.castIntnat = some n := by
  unfold Double.castIntnat
  rw [h]

theorem castIntnat_add_ofInt (x : Double) (c d : Int) (hx : x.intValue = some c)
    (hd : d.natAbs ≤ 2 ^ 53) (hs : (c + d).natAbs ≤ 2 ^ 53) :
    (x.add (Double.ofInt d)).castIntnat = some (c + d) := by
  apply Double.castIntnat_of_toIntnat
  rw [Double.add_of_intValue x (Double.ofInt d) c d hx (Double.ofInt_exact d hd).1]
  exact (Double.ofInt_exact (c + d) hs).2

theorem returns_of_small (r : Option Int) (n : Int) (h : r = some n) (hn : n.natAbs ≤ 2 ^ 53) :
    Returns (r.map Val_long) n := by
  have := returns_map_Val_long r n h
  rwa [wrapOCamlInt_of_range n (by omega) (by omega)] at this

/-- C1, as amended: when the minor-words counter holds an integer `c` and both
the distance `caml_young_end - caml_young_ptr` (a difference of `value`
pointers, hence a number of words) and the sum of `c` and that distance have
magnitude at most `2 ^ 53`, `minor_words()` is exactly the counter plus the
distance, and the primitive hands that integer to the caller. -/
theorem minor_words_exact (s : GcState) (c : Int)
    (hc : s.caml_stat_minor_words.intValue = some c)
    (hd : ((s.caml_young_end : Int) - (s.caml_young_ptr : Int)).natAbs ≤ 2 ^ 53)
    (hs : (c + ((s.caml_young_end : Int) - (s.caml_young_ptr : Int))).natAbs ≤ 2 ^ 53) :
    minor_words s = some (c + ((s.caml_young_end : Int) - (s.caml_young_ptr : Int))) ∧
    Returns (core_gc_minor_words s)
      (c + ((s.caml_young_end : Int) - (s.caml_young_ptr : Int))) := by
  have hp := ptrdiff_of_range s.caml_young_end s.caml_young_ptr (by omega) (by omega)
  have h : minor_words s =
      some (c + ((s.caml_young_end : Int) - (s.caml_young_ptr : Int))) := by
    rw [minor_words_eq, hp]
    exact castIntnat_add_ofInt s.caml_stat_minor_words c _ hc hd hs
  exact ⟨h, by rw [core_gc_minor_words_eq]; exact returns_of_small _ _ h hs⟩

/-- Witness of `minor_words_exact`: counter `1000`, `24` words in flight. -/
theorem minor_words_exact_witness :
    minor_words stateSmall = some (1000 + ((4096 : Int) - 4072)) ∧
    Returns (core_gc_minor_words stateSmall) (1000 + ((4096 : Int) - 4072)) :=
  minor_words_exact stateSmall 1000 (by decide) (by decide) (by decide)

/-- C1 fails as stated: with the counter at `2 ^ 53` and one word in flight,
`minor_words()` is `2 ^ 53`, not `2 ^ 53 + 1`: the sum is rounded to a
`double` before it is converted to an integer. -/
theorem minor_words_rounds :
    stateMinorRounds.WellTyped ∧
    stateMinorRounds.caml_stat_minor_words.intValue = some (2 ^ 53) ∧
    (stateMinorRounds.caml_young_end : Int) - (stateMinorRounds.caml_young_ptr : Int) = 1 ∧
    minor_words stateMinorRounds = some (2 ^ 53) ∧
    minor_words stateMinorRounds ≠ some (2 ^ 53 + 1) ∧
    Returns (core_gc_minor_words stateMinorRounds) (2 ^ 53) ∧
    ¬ Returns (core_gc_minor_words stateMinorRounds) (2 ^ 53 + 1) := by
  decide

/-- C2, as amended: in every state the result of `major_words()` depends on
the major-words counter and the allocated-words counter only; and when the
major-words counter holds an integer `c` and both the allocated-words counter
and the sum of the two have magnitude at most `2 ^ 53`, `major_words()` is
exactly the sum of the two counters, and the primitive hands that integer to
the caller. -/
theorem major_words_exact (s : GcState) :
    (∀ s' : GcState, s'.caml_stat_major_words = s.caml_stat_major_words →
      s'.caml_allocated_words = s.caml_allocated_words →
      major_words s' = major_words s ∧ core_gc_major_words s' = core_gc_major_words s) ∧
    (∀ c : Int, s.caml_stat_major_words.intValue = some c →
      s.caml_allocated_words ≤ 2 ^ 53 →
      (c + (s.caml_allocated_words : Int)).natAbs ≤ 2 ^ 53 →
      major_words s = some (c + (s.caml_allocated_words : Int)) ∧
      Returns (core_gc_major_words s) (c + (s.caml_allocated_words : Int))) := by
  constructor
  · intro s' h1 h2
    simp only [core_gc_major_words_eq, major_words_eq, h1, h2, and_self]
  · intro c hc ha hs
    have h : major_words s = some (c + (s.caml_allocated_words : Int)) := by
      rw [major_words_eq]
      exact castIntnat_add_ofInt s.caml_stat_major_words c _ hc (by omega) hs
    exact ⟨h, by rw [core_gc_major_words_eq]; exact returns_of_small _ _ h hs⟩

/-- Witness of `major_words_exact`: counter `500`, `12` allocated words. -/
theorem major_words_exact_witness :
    major_words stateSmall = some (500 + ((12 : Nat) : Int)) ∧
    Returns (core_gc_major_words stateSmall) (500 + ((12 : Nat) : Int)) :=
  (major_words_exact stateSmall).2 500 (by decide) (by decide) (by decide)

/-- C2 fails as stated: with the major-words counter at `2 ^ 53` and one
allocated word, `major_words()` is `2 ^ 53`, not `2 ^ 53 + 1`. -/
theorem major_words_rounds :
    stateMajorRounds.WellTyped ∧
    stateMajorRounds.caml_stat_major_words.intValue = some (2 ^ 53) ∧
    stateMajorRounds.caml_allocated_words = 1 ∧
    major_words stateMajorRounds = some (2 ^ 53) ∧
    major_words stateMajorRounds ≠ some (2 ^ 53 + 1) ∧
    Returns (core_gc_major_words stateMajorRounds) (2 ^ 53) ∧
    ¬ Returns (core_gc_major_words stateMajorRounds) (2 ^ 53 + 1) := by
  decide

/-! ## The derived counters -/

theorem returns_map_Val_long_iff (r : Option Int) (n : Int) :
    Returns (r.map Val_long) n ↔ ∃ x, r = some x ∧ wrapOCamlInt x = n := by
  cases r <;> simp [Returns, Long_val_Val_long]

theorem wrap_sum (a b : Int) :
    wrapOCamlInt (wrapIntnat (a + b)) = wrapOCamlInt (wrapOCamlInt a + wrapOCamlInt b) := by
  unfold wrapIntnat wrapOCamlInt
  omega

theorem wrap_sum_sub (a b c : Int) :
    wrapOCamlInt (wrapIntnat (wrapIntnat (a + b) - c)) =
      wrapOCamlInt (wrapOCamlInt a + wrapOCamlInt b - wrapOCamlInt c) := by
  unfold wrapIntnat wrapOCamlInt
  omega

/-- The sum primitive returns the 63-bit sum of what the two word primitives
return. -/
theorem major_plus_minor_returns (s : GcState) (a b : Int)
    (ha : Returns (core_gc_minor_words s) a) (hb : Returns (core_gc_major_words s) b) :
    Returns (core_gc_major_plus_minor_words s) (wrapOCamlInt (a + b)) := by
  rw [core_gc_minor_words_eq] at ha
  rw [core_gc_major_words_eq] at hb
  obtain ⟨x, hx, rfl⟩ := (returns_map_Val_long_iff _ _).1 ha
  obtain ⟨y, hy, rfl⟩ := (returns_map_Val_long_iff _ _).1 hb
  simp only [core_gc_major_plus_minor_words_eq, hx, hy, Option.some_bind, Returns,
    Option.map_some', Long_val_Val_long, wrap_sum]

/-- The net-allocation primitive returns the 63-bit value of minor plus major
minus promoted, taken on what the three primitives return. -/
theorem allocated_returns (s : GcState) (a b c : Int)
    (ha : Returns (core_gc_minor_words s) a) (hb : Returns (core_gc_major_words s) b)
    (hc : Returns (core_gc_promoted_words s) c) :
    Returns (core_gc_allocated_words s) (wrapOCamlInt (a + b - c)) := by
  rw [core_gc_minor_words_eq] at ha
  rw [core_gc_major_words_eq] at hb
  rw [core_gc_promoted_words_eq] at hc
  obtain ⟨x, hx, rfl⟩ := (returns_map_Val_long_iff _ _).1 ha
  obtain ⟨y, hy, rfl⟩ := (returns_map_Val_long_iff _ _).1 hb
  obtain ⟨z, hz, rfl⟩ := (returns_map_Val_long_iff _ _).1 hc
  simp only [core_gc_allocated_words_eq, hx, hy, hz, Option.some_bind, Returns,
    Option.map_some', Long_val_Val_long, wrap_sum_sub]

/-- C3, as amended: in every state, if the minor-words, major-words and
promoted-words primitives return `a`, `b` and `c`, the allocated-words
primitive returns `a + b - c` reduced to the 63 bits of an OCaml integer
(`wrapOCamlInt`), and so `a + b - c` itself whenever that lies from `-2 ^ 62`
up to `2 ^ 62 - 1`. -/
theorem allocated_words_eq (s : GcState) (a b c : Int)
    (ha : Returns (core_gc_minor_words s) a) (hb : Returns (core_gc_major_words s) b)
    (hc : Returns (core_gc_promoted_words s) c) :
    Returns (core_gc_allocated_words s) (wrapOCamlInt (a + b - c)) ∧
    (-2 ^ 62 ≤ a + b - c → a + b - c < 2 ^ 62 →
      Returns (core_gc_allocated_words s) (a + b - c)) := by
  have h := allocated_returns s a b c ha hb hc
  refine ⟨h, fun h1 h2 => ?_⟩
  rwa [wrapOCamlInt_of_range _ h1 h2] at h

/-- Witness of `allocated_words_eq`: the three primitives return `1024`, `512`
and `300`, and the allocated-words primitive returns `1024 + 512 - 300`. -/
theorem allocated_words_eq_witness :
    Returns (core_gc_minor_words stateSmall) 1024 ∧
    Returns (core_gc_major_words stateSmall) 512 ∧
    Returns (core_gc_promoted_words stateSmall) 300 ∧
    Returns (core_gc_allocated_words stateSmall) (1024 + 512 - 300) :=
  ⟨by decide, by decide, by decide,
    (allocated_words_eq stateSmall 1024 512 300 (by decide) (by decide) (by decide)).2
      (by decide) (by decide)⟩

/-- C3 fails as stated: the minor-words and major-words primitives return
`2 ^ 61` each and the promoted-words primitive returns `0`, and the
allocated-words primitive returns `-2 ^ 62`, not `2 ^ 61 + 2 ^ 61 - 0`. -/
theorem allocated_words_wraps :
    stateSumWraps.WellTyped ∧
    Returns (core_gc_minor_words stateSumWraps) (2 ^ 61) ∧
    Returns (core_gc_major_words stateSumWraps) (2 ^ 61) ∧
    Returns (core_gc_promoted_words stateSumWraps) 0 ∧
    Returns (core_gc_allocated_words stateSumWraps) (-2 ^ 62) ∧
    ¬ Returns (core_gc_allocated_words stateSumWraps) (2 ^ 61 + 2 ^ 61 - 0) := by
  decide

/-- C4, as amended: in every state, if the minor-words and major-words
primitives return `a` and `b`, the major-plus-minor primitive returns `a + b`
reduced to the 63 bits of an OCaml integer (`wrapOCamlInt`), and so `a + b`
itself whenever that lies from `-2 ^ 62` up to `2 ^ 62 - 1`. -/
theorem major_plus_minor_words_eq (s : GcState) (a b : Int)
    (ha : Returns (core_gc_minor_words s) a) (hb : Returns (core_gc_major_words s) b) :
    Returns (core_gc_major_plus_minor_words s) (wrapOCamlInt (a + b)) ∧
    (-2 ^ 62 ≤ a + b → a + b < 2 ^ 62 →
      Returns (core_gc_major_plus_minor_words s) (a + b)) := by
  have h := major_plus_minor_returns s a b ha hb
  refine ⟨h, fun h1 h2 => ?_⟩
  rwa [wrapOCamlInt_of_range _ h1 h2] at h

/-- Witness of `major_plus_minor_words_eq`: the two primitives return `1024`
and `512`, and the major-plus-minor primitive returns `1024 + 512`. -/
theorem major_plus_minor_words_eq_witness :
    Returns (core_gc_minor_words stateSmall) 1024 ∧
    Returns (core_gc_major_words stateSmall) 512 ∧
    Returns (core_gc_major_plus_minor_words stateSmall) (1024 + 512) :=
  ⟨by decide, by decide,
    (major_plus_minor_words_eq stateSmall 1024 512 (by decide) (by decide)).2
      (by decide) (by decide)⟩

/-- C4 fails as stated: the minor-words and major-words primitives return
`2 ^ 61` each, and the major-plus-minor primitive returns `-2 ^ 62`, not
`2 ^ 61 + 2 ^ 61`. -/
theorem major_plus_minor_words_wraps :
    stateSumWraps.WellTyped ∧
    Returns (core_gc_minor_words stateSumWraps) (2 ^ 61) ∧
    Returns (core_gc_major_words stateSumWraps) (2 ^ 61) ∧
    Returns (core_gc_major_plus_minor_words stateSumWraps) (-2 ^ 62) ∧
    ¬ Returns (core_gc_major_plus_minor_words stateSumWraps) (2 ^ 61 + 2 ^ 61) := by
  decide

/-- C5, as amended: in every state in which the promoted-words primitive
returns no more than the sum of what the minor-words and major-words
primitives return, and in which minor plus major minus promoted is below
`2 ^ 62` (so that it is an OCaml integer), the allocated-words primitive
returns exactly that difference, which is non-negative. -/
theorem allocated_words_nonneg (s : GcState) (a b c : Int)
    (ha : Returns (core_gc_minor_words s) a) (hb : Returns (core_gc_major_words s) b)
    (hc : Returns (core_gc_promoted_words s) c) (hle : c ≤ a + b)
    (hlt : a + b - c < 2 ^ 62) :
    Returns (core_gc_allocated_words s) (a + b - c) ∧ 0 ≤ a + b - c := by
  have h := allocated_returns s a b c ha hb hc
  rw [wrapOCamlInt_of_range _ (by omega) hlt] at h
  exact ⟨h, by omega⟩

/-- Witness of `allocated_words_nonneg`: `300` words promoted out of
`1024 + 512`. -/
theorem allocated_words_nonneg_witness :
    Returns (core_gc_allocated_words stateSmall) (1024 + 512 - 300) ∧
    (0 : Int) ≤ 1024 + 512 - 300 :=
  allocated_words_nonneg stateSmall 1024 512 300 (by decide) (by decide) (by decide)
    (by decide) (by decide)

/-- C5 fails as stated: with `2 ^ 61` minor words, `2 ^ 61` major words and
nothing promoted, promotion does not exceed allocation, and the
allocated-words primitive returns `-2 ^ 62`: the sum `2 ^ 62` is not an OCaml
integer. -/
theorem allocated_words_negative :
    stateSumWraps.WellTyped ∧
    Returns (core_gc_minor_words stateSumWraps) (2 ^ 61) ∧
    Returns (core_gc_major_words stateSumWraps) (2 ^ 61) ∧
    Returns (core_gc_promoted_words stateSumWraps) 0 ∧
    (0 : Int) ≤ 2 ^ 61 + 2 ^ 61 ∧
    Returns (core_gc_allocated_words stateSumWraps) (-2 ^ 62) := by
  decide

/-! ## The plain counters -/

theorem truncate_of_intValue (m e c : Int) (h : (Double.fin m e).intValue = some c) :
    truncate m e = c := by
  rcases (Double.intValue_fin_iff m e c).1 h with ⟨he, hc⟩ | ⟨he, hc⟩
  · unfold truncate; rw [if_pos he, hc]
  · unfold truncate
    rw [if_neg (not_le.2 he), hc]
    exact Int.mul_tdiv_cancel _ (pow_ne_zero _ (by decide))

/-- The cast to `intnat` of a double that holds an integer in the range of
`intnat` is that integer. -/
theorem Double.toIntnat_of_intValue (x : Double) (c : Int) (h : x.intValue = some c)
    (h1 : intnatMin ≤ c) (h2 : c ≤ intnatMax) : x.toIntnat = some c := by
  cases x with
  | nan => simp [Double.intValue] at h
  | inf a => simp [Double.intValue] at h
  | fin m e =>
    have ht := truncate_of_intValue m e c h
    rw [Double.toIntnat_fin m e (by rw [ht]; exact h1) (by rw [ht]; exact h2), ht]

theorem returns_Val_long (n : Int) (h1 : -2 ^ 62 ≤ n) (h2 : n < 2 ^ 62) :
    Returns (some (Val_long n)) n := by
  simp only [Returns, Option.map_some', Long_val_Val_long, wrapOCamlInt_of_range n h1 h2]

/-- C7, as amended: the promoted-words primitive returns its counter unchanged
whenever the counter holds an integer that is an OCaml integer (from
`-2 ^ 62` up to `2 ^ 62 - 1`, negative ones included), and each of the three
collection-count primitives returns its counter unchanged whenever the counter
is an OCaml integer; in every state the result of each of the four depends on
its own counter only. -/
theorem plain_counters_verbatim (s : GcState) :
    (∀ c : Int, s.caml_stat_promoted_words.intValue = some c → -2 ^ 62 ≤ c → c < 2 ^ 62 →
      promoted_words s = some c ∧ Returns (core_gc_promoted_words s) c) ∧
    (-2 ^ 62 ≤ s.caml_stat_minor_collections → s.caml_stat_minor_collections < 2 ^ 62 →
      Returns (core_gc_minor_collections s) s.caml_stat_minor_collections) ∧
    (-2 ^ 62 ≤ s.caml_stat_major_collections → s.caml_stat_major_collections < 2 ^ 62 →
      Returns (core_gc_major_collections s) s.caml_stat_major_collections) ∧
    (-2 ^ 62 ≤ s.caml_stat_compactions → s.caml_stat_compactions < 2 ^ 62 →
      Returns (core_gc_compactions s) s.caml_stat_compactions) ∧
    (∀ s' : GcState, s'.caml_stat_promoted_words = s.caml_stat_promoted_words →
      core_gc_promoted_words s' = core_gc_promoted_words s) ∧
    (∀ s' : GcState, s'.caml_stat_minor_collections = s.caml_stat_minor_collections →
      core_gc_minor_collections s' = core_gc_minor_collections s) ∧
    (∀ s' : GcState, s'.caml_stat_major_collections = s.caml_stat_major_collections →
      core_gc_major_collections s' = core_gc_major_collections s) ∧
    (∀ s' : GcState, s'.caml_stat_compactions = s.caml_stat_compactions →
      core_gc_compactions s' = core_gc_compactions s) := by
  refine ⟨?_, ?_, ?_, ?_, ?_, ?_, ?_, ?_⟩
  · intro c hc h1 h2
    have h : promoted_words s = some c := by
      rw [promoted_words_eq]
      exact Double.castIntnat_of_toIntnat _ _
        (Double.toIntnat_of_intValue _ c hc (by simp only [intnatMin]; omega)
          (by simp only [intnatMax]; omega))
    refine ⟨h, ?_⟩
    have hr := returns_map_Val_long (promoted_words s) c h
    rw [wrapOCamlInt_of_range c h1 h2] at hr
    rw [core_gc_promoted_words_eq]
    exact hr
  · intro h1 h2; rw [core_gc_minor_collections_eq]; exact returns_Val_long _ h1 h2
  · intro h1 h2; rw [core_gc_major_collections_eq]; exact returns_Val_long _ h1 h2
  · intro h1 h2; rw [core_gc_compactions_eq]; exact returns_Val_long _ h1 h2
  · intro s' h; simp only [core_gc_promoted_words_eq, promoted_words_eq, h]
  · intro s' h; simp only [core_gc_minor_collections_eq, h]
  · intro s' h; simp only [core_gc_major_collections_eq, h]
  · intro s' h; simp only [core_gc_compactions_eq, h]

/-- Witness of `plain_counters_verbatim`: counters `300`, `7`, `3` and `1`. -/
theorem plain_counters_verbatim_witness :
    (promoted_words stateSmall = some 300 ∧ Returns (core_gc_promoted_words stateSmall) 300) ∧
    Returns (core_gc_minor_collections stateSmall) 7 ∧
    Returns (core_gc_major_collections stateSmall) 3 ∧
    Returns (core_gc_compactions stateSmall) 1 :=
  ⟨(plain_counters_verbatim stateSmall).1 300 (by decide) (by decide) (by decide),
    (plain_counters_verbatim stateSmall).2.1 (by decide) (by decide),
    (plain_counters_verbatim stateSmall).2.2.1 (by decide) (by decide),
    (plain_counters_verbatim stateSmall).2.2.2.1 (by decide) (by decide)⟩

/-- C7 fails as stated: a promoted-words counter that holds one half (twice
the counter is one) is returned as `0`, and a minor-collections counter that
holds `2 ^ 62` is returned as `-2 ^ 62`. -/
theorem plain_counters_adjusted :
    stateOddCounters.WellTyped ∧
    stateOddCounters.caml_stat_promoted_words.add stateOddCounters.caml_stat_promoted_words =
      Double.ofInt 1 ∧
    stateOddCounters.caml_stat_promoted_words.intValue = none ∧
    Returns (core_gc_promoted_words stateOddCounters) 0 ∧
    stateOddCounters.caml_stat_minor_collections = 2 ^ 62 ∧
    Returns (core_gc_minor_collections stateOddCounters) (-2 ^ 62) := by
  decide

/-! ## A fresh collector -/

theorem freshAllocated_minor (base k : Nat) (hk : k ≤ 2 ^ 53) :
    minor_words (freshAllocated base k) = some (k : Int) := by
  have h := castIntnat_add_ofInt (Double.fin 0 0) 0 (k : Int) (by decide) (by omega) (by omega)
  have e : ptrdiff (base + k) base = (k : Int) := by
    rw [ptrdiff_of_range _ _ (by omega) (by omega)]
    omega
  rw [minor_words_eq]
  simp only [freshAllocated]
  rw [e, h, zero_add]

theorem freshAllocated_major (base k : Nat) :
    major_words (freshAllocated base k) = some 0 := by
  rw [major_words_eq]
  simp only [freshAllocated]
  decide

theorem freshAllocated_promoted (base k : Nat) :
    promoted_words (freshAllocated base k) = some 0 := by
  rw [promoted_words_eq]
  simp only [freshAllocated]
  decide

/-- C6, as amended: for every `k` up to `2 ^ 53`, in the state reached from a
freshly initialised collector by allocating `k` words in the minor heap
without a collection, the minor-words primitive returns `k`, the
allocated-words primitive returns `k`, and the major-collections, compactions
and promoted-words primitives return `0`. -/
theorem fresh_scenario (base k : Nat) (hk : k ≤ 2 ^ 53) :
    Returns (core_gc_minor_words (freshAllocated base k)) k ∧
    Returns (core_gc_allocated_words (freshAllocated base k)) k ∧
    Returns (core_gc_major_collections (freshAllocated base k)) 0 ∧
    Returns (core_gc_compactions (freshAllocated base k)) 0 ∧
    Returns (core_gc_promoted_words (freshAllocated base k)) 0 := by
  have hm := freshAllocated_minor base k hk
  have hM := freshAllocated_major base k
  have hp := freshAllocated_promoted base k
  have h1 : Returns (core_gc_minor_words (freshAllocated base k)) k := by
    rw [core_gc_minor_words_eq]; exact returns_of_small _ _ hm (by omega)
  have h2 : Returns (core_gc_major_words (freshAllocated base k)) 0 := by
    rw [core_gc_major_words_eq]; exact returns_of_small _ _ hM (by decide)
  have h3 : Returns (core_gc_promoted_words (freshAllocated base k)) 0 := by
    rw [core_gc_promoted_words_eq]; exact returns_of_small _ _ hp (by decide)
  have h4 := allocated_returns _ _ _ _ h1 h2 h3
  rw [wrapOCamlInt_of_range _ (by omega) (by omega)] at h4
  refine ⟨h1, by simpa using h4, ?_, ?_, h3⟩
  · rw [core_gc_major_collections_eq]; exact returns_Val_long 0 (by decide) (by decide)
  · rw [core_gc_compactions_eq]; exact returns_Val_long 0 (by decide) (by decide)

/-- Witness of `fresh_scenario`: `100` words allocated. -/
theorem fresh_scenario_witness :
    Returns (core_gc_minor_words (freshAllocated 4096 100)) (100 : Nat) ∧
    Returns (core_gc_allocated_words (freshAllocated 4096 100)) (100 : Nat) ∧
    Returns (core_gc_major_collections (freshAllocated 4096 100)) 0 ∧
    Returns (core_gc_compactions (freshAllocated 4096 100)) 0 ∧
    Returns (core_gc_promoted_words (freshAllocated 4096 100)) 0 :=
  fresh_scenario 4096 100 (by decide)

/-- C6 fails as stated: after `2 ^ 53 + 1` words the minor-words and
allocated-words primitives return `2 ^ 53`. -/
theorem fresh_scenario_rounds :
    (freshAllocated 0 (2 ^ 53 + 1)).WellTyped ∧
    Returns (core_gc_minor_words (freshAllocated 0 (2 ^ 53 + 1))) (2 ^ 53) ∧
    ¬ Returns (core_gc_minor_words (freshAllocated 0 (2 ^ 53 + 1))) (2 ^ 53 + 1) ∧
    Returns (core_gc_allocated_words (freshAllocated 0 (2 ^ 53 + 1))) (2 ^ 53) ∧
    ¬ Returns (core_gc_allocated_words (freshAllocated 0 (2 ^ 53 + 1))) (2 ^ 53 + 1) := by
  decide

/-! ## Totality -/

/-- The primitives on a state whose minor-words counter is a NaN and whose
promoted-words counter holds `2 ^ 63`: each conversion gives the smallest
`intnat`, which reads back as the OCaml integer `0`. -/
theorem queries_on_unconvertible :
    stateUndefined.WellTyped ∧
    minor_words stateUndefined = some (-2 ^ 63) ∧
    promoted_words stateUndefined = some (-2 ^ 63) ∧
    Returns (core_gc_minor_words stateUndefined) 0 ∧
    Returns (core_gc_promoted_words stateUndefined) 0 ∧
    Returns (core_gc_major_plus_minor_words stateUndefined) 0 ∧
    Returns (core_gc_allocated_words stateUndefined) 0 := by
  decide

/-! ## Repeated calls -/

/-- A computation on the globals need not leave them as they were: one that
counts an allocated word changes the state. -/
theorem stub_may_write :
    ((modify fun t => { t with caml_allocated_words := t.caml_allocated_words + 1 } :
      Stub PUnit).run stateSmall).2 ≠ stateSmall := by
  decide

/-- C9: for each of the eight primitives and every state, a call leaves every
global as it was; two calls in succession return the same value both times,
the value of a single call; and a call of any primitive in between changes
neither the result of the next call nor the state it leaves. -/
theorem call_twice (p : Primitive) (s : GcState) :
    (p.stub.run s).2 = s ∧
    p.twice.run s = (((p.stub.run s).1, (p.stub.run s).1), s) ∧
    ∀ q : Primitive, (p.andThen q).run s = q.stub.run s := by
  refine ⟨?_, ?_, ?_⟩
  · cases p <;> rfl
  · cases p <;> rfl
  · intro q
    cases p <;> cases q <;> rfl

/-! ## The minor collection -/

end GcStubs
